import Mathlib

/-!
Shallow embedding of the `ListWithPrecedence` registry from
`src/tg/configuration/utils.py` and verification of its ordering
properties.

Python objects relevant to the registry are either classes or instances
of a class.  `inspect.isclass` distinguishes them and `__class__` maps an
instance to its class.  The registry state is

  * `_dependencies`: a dict from an `after` key (the sentinels `False`
    and `None`, or an arbitrary object) to the list of objects appended
    under that key, in insertion order (`setdefault(after, []).append(obj)`);
  * `_ordered_elements`: the materialised traversal order, recomputed by
    `_resolve_ordering` after every `add`.

`_resolve_ordering` runs a queue seeded `deque([False, None])`; at each
step it pops the leftmost item, emits it unless it is a sentinel, replaces
a non-class item by its class, pops that key's entry from a copy of the
dependency dict and prepends the entry's list to the queue
(`extendleft(reversed(...))`).  The Python `while` loop is embedded with
explicit fuel and we prove that fuel `queue length + total number of
registered dependents` always suffices, so the extraction is total.
-/

namespace TG

/-- A Python object as seen by the registry: a class (identified by a
class name) or an instance of a class (with an object identity). -/
inductive PyObj where
  | cls (name : Nat)
  | inst (clsName : Nat) (objId : Nat)
deriving DecidableEq, Repr

/-- `inspect.isclass`. -/
def PyObj.isclass : PyObj → Bool
  | .cls _ => true
  | .inst _ _ => false

/-- The class name of an object: a class names itself, an instance names
its class.  This is the category used for dependency matching. -/
def PyObj.categoryName : PyObj → Nat
  | .cls n => n
  | .inst n _ => n

/-- `obj.__class__` for an instance (the only case the source applies it
to, guarded by `not inspect.isclass(current)`). -/
def PyObj.classOf : PyObj → PyObj
  | .cls n => .cls n
  | .inst n _ => .cls n

/-- A key of the `_dependencies` dict: the sentinel `False`, the sentinel
`None` (the default `after`), or a Python object. -/
inductive AfterKey where
  | fls
  | none_
  | obj (o : PyObj)
deriving DecidableEq, Repr

/-- The `_dependencies` dict, embedded as an association list in key
insertion order; only per-key lookup and removal matter for traversal. -/
abbrev Deps := List (AfterKey × List PyObj)

/-- `self._dependencies.setdefault(after, []).append(obj)`. -/
def addDep : Deps → AfterKey → PyObj → Deps
  | [], k, o => [(k, [o])]
  | (k1, l) :: rest, k, o =>
    if k1 = k then (k1, l ++ [o]) :: rest
    else (k1, l) :: addDep rest k o

/-- `registered_wrappers.pop(current, [])`: the value stored at the key
(or `[]`) together with the dict with that key removed. -/
def popKey : Deps → AfterKey → List PyObj × Deps
  | [], _ => ([], [])
  | (k1, l) :: rest, k =>
    if k1 = k then (l, rest)
    else
      let r := popKey rest k
      (r.1, (k1, l) :: r.2)

/-- Total number of registered dependents in the dict. -/
def depsSize (d : Deps) : Nat := (d.map (fun p => p.2.length)).sum

/-- What a popped queue item appends to `self._ordered_elements`:
nothing for the sentinels `False` and `None`, the object itself
otherwise. -/
def stepEmit : AfterKey → List PyObj
  | .fls => []
  | .none_ => []
  | .obj o => [o]

/-- The key looked up in `registered_wrappers` for a popped queue item:
a sentinel looks itself up; an object is first replaced by its class when
it is not one (`if not inspect.isclass(current): current = current.__class__`). -/
def stepKey : AfterKey → AfterKey
  | .fls => .fls
  | .none_ => .none_
  | .obj o => if o.isclass then .obj o else .obj o.classOf

/-- The `while visit_queue` loop of `_resolve_ordering`, with explicit
fuel.  The queue holds sentinels and objects; `extendleft(reversed(l))`
prepends `l` in order.  Returns the accumulated `_ordered_elements` and
the residual working dict, or `none` on fuel exhaustion. -/
def resolveLoop : Nat → List AfterKey → Deps → List PyObj → Option (List PyObj × Deps)
  | _, [], m, acc => some (acc, m)
  | 0, _ :: _, _, _ => none
  | fuel + 1, x :: rest, m, acc =>
    let r := popKey m (stepKey x)
    resolveLoop fuel (r.1.map AfterKey.obj ++ rest) r.2 (acc ++ stepEmit x)

/-- Fuel that always suffices for `resolveLoop` (proved below). -/
def resolveFuel (q : List AfterKey) (m : Deps) : Nat := q.length + depsSize m

/-- The loop run with sufficient fuel, as a total function. -/
def runLoop (q : List AfterKey) (m : Deps) (acc : List PyObj) : List PyObj × Deps :=
  (resolveLoop (resolveFuel q m) q m acc).getD (acc, m)

/-- `_resolve_ordering`: recompute `_ordered_elements` from the
dependency dict, starting from the queue `deque([False, None])`. -/
def resolve_ordering (d : Deps) : List PyObj := (runLoop [.fls, .none_] d []).1

/-- The registry object: `_dependencies` and `_ordered_elements`. -/
structure ListWithPrecedence where
  dependencies : Deps
  ordered_elements : List PyObj
deriving DecidableEq, Repr

/-- `ListWithPrecedence.__init__`. -/
def ListWithPrecedence.empty : ListWithPrecedence := ⟨[], []⟩

/-- `ListWithPrecedence.add(obj, after)`: record the dependency and
synchronously recompute the ordering. -/
def ListWithPrecedence.add (s : ListWithPrecedence) (o : PyObj) (after : AfterKey) :
    ListWithPrecedence :=
  let d := addDep s.dependencies after o
  ⟨d, resolve_ordering d⟩

/-- `ListWithPrecedence.__iter__` reads `self._ordered_elements` and
performs no mutation, so its embedding returns the element list together
with the unchanged registry state. -/
def ListWithPrecedence.iterElems (s : ListWithPrecedence) :
    List PyObj × ListWithPrecedence :=
  (s.ordered_elements, s)

/-- The ordered sequence produced by iterating the registry. -/
def ListWithPrecedence.iter (s : ListWithPrecedence) : List PyObj :=
  s.ordered_elements

/-- A registry built by a history of `add` calls, in order. -/
def ListWithPrecedence.build (h : List (PyObj × AfterKey)) : ListWithPrecedence :=
  h.foldl (fun s p => s.add p.1 p.2) .empty

/-- All dependents registered in the dict, flattened. -/
def depsVals (d : Deps) : List PyObj := (d.map Prod.snd).flatten

/-- The objects sitting in the queue (sentinels dropped). -/
def objsOf (q : List AfterKey) : List PyObj :=
  q.filterMap fun x =>
    match x with
    | .obj o => some o
    | .fls => none
    | .none_ => none

/-- The list obtained by inserting `c` right after the first element of
category `k` (the traversal slot category matching attaches to). -/
def insertAfterFirst (k : Nat) (c : PyObj) : List PyObj → List PyObj
  | [] => []
  | x :: rest =>
    if x.categoryName = k then x :: c :: rest
    else x :: insertAfterFirst k c rest

/-- The dependency dict accumulated by a history of `add` calls. -/
def depsOfHistory (h : List (PyObj × AfterKey)) : Deps :=
  h.foldl (fun d p => addDep d p.2 p.1) []

/-- Modelled from the claim for C2 (not from the source): a breadth-first
loop, identical to `resolveLoop` except that freshly found dependents are
appended at the back of the queue, so all features of one level are
visited before any dependent — `first all root-level features ... then for
each visited feature its directly-attached dependents`. -/
def bfsLoop : Nat → List AfterKey → Deps → List PyObj → Option (List PyObj)
  | _, [], _, acc => some acc
  | 0, _ :: _, _, _ => none
  | fuel + 1, x :: rest, m, acc =>
    let r := popKey m (stepKey x)
    bfsLoop fuel (rest ++ r.1.map AfterKey.obj) r.2 (acc ++ stepEmit x)

/-- Modelled from the claim for C2: the breadth-first ordering the claim
describes, run from the same seeded queue. -/
def bfsOrder (d : Deps) : List PyObj :=
  (bfsLoop (2 + depsSize d) [AfterKey.fls, AfterKey.none_] d []).getD []

example :
    (ListWithPrecedence.build
      [(.cls 0, .none_), (.cls 1, .none_), (.cls 2, .obj (.cls 0))]).iter =
    [.cls 0, .cls 2, .cls 1] := by decide

example :
    (ListWithPrecedence.build
      [(.inst 0 0, .none_), (.inst 1 1, .none_), (.inst 2 2, .obj (.inst 0 0))]).iter =
    [.inst 0 0, .inst 1 1] := by decide

/-! ### Basic lemmas about the working dict and the fuelled loop -/

@[simp]
theorem depsSize_nil : depsSize [] = 0 := rfl

@[simp]
theorem depsSize_cons (k : AfterKey) (l : List PyObj) (rest : Deps) :
    depsSize ((k, l) :: rest) = l.length + depsSize rest := by
  simp [depsSize]

theorem popKey_size (d : Deps) (k : AfterKey) :
    (popKey d k).1.length + depsSize (popKey d k).2 = depsSize d := by
  induction d with
  | nil => simp [popKey]
  | cons p rest ih =>
    obtain ⟨k1, l⟩ := p
    by_cases hk : k1 = k
    · simp [popKey, hk]
    · simp only [popKey, if_neg hk, depsSize_cons]
      omega

@[simp]
theorem resolveLoop_nil (fuel : Nat) (m : Deps) (acc : List PyObj) :
    resolveLoop fuel [] m acc = some (acc, m) := by
  cases fuel <;> rfl

theorem resolveLoop_cons (fuel : Nat) (x : AfterKey) (rest : List AfterKey)
    (m : Deps) (acc : List PyObj) :
    resolveLoop (fuel + 1) (x :: rest) m acc =
      resolveLoop fuel ((popKey m (stepKey x)).1.map AfterKey.obj ++ rest)
        (popKey m (stepKey x)).2 (acc ++ stepEmit x) := rfl

theorem resolveFuel_step (x : AfterKey) (rest : List AfterKey) (m : Deps) :
    resolveFuel ((popKey m (stepKey x)).1.map AfterKey.obj ++ rest)
        (popKey m (stepKey x)).2 + 1 =
      resolveFuel (x :: rest) m := by
  have h := popKey_size m (stepKey x)
  simp only [resolveFuel, List.length_append, List.length_map, List.length_cons]
  omega

theorem resolveLoop_isSome (fuel : Nat) :
    ∀ (q : List AfterKey) (m : Deps) (acc : List PyObj),
      resolveFuel q m ≤ fuel → (resolveLoop fuel q m acc).isSome := by
  induction fuel with
  | zero =>
    intro q m acc h
    cases q with
    | nil => simp
    | cons x rest => simp [resolveFuel] at h
  | succ n ih =>
    intro q m acc h
    cases q with
    | nil => simp
    | cons x rest =>
      rw [resolveLoop_cons]
      apply ih
      have hstep := resolveFuel_step x rest m
      omega

theorem resolveLoop_canonical (fuel : Nat) :
    ∀ (q : List AfterKey) (m : Deps) (acc : List PyObj),
      resolveFuel q m ≤ fuel →
      resolveLoop fuel q m acc = resolveLoop (resolveFuel q m) q m acc := by
  induction fuel with
  | zero =>
    intro q m acc h
    cases q with
    | nil => simp
    | cons x rest => simp [resolveFuel] at h
  | succ n ih =>
    intro q m acc h
    cases q with
    | nil => simp
    | cons x rest =>
      rw [resolveLoop_cons]
      rw [← resolveFuel_step x rest m, resolveLoop_cons]
      have hstep := resolveFuel_step x rest m
      rw [ih _ _ _ (by omega)]

theorem runLoop_eq_resolveLoop (fuel : Nat) (q : List AfterKey) (m : Deps)
    (acc : List PyObj) (h : resolveFuel q m ≤ fuel) :
    resolveLoop fuel q m acc = some (runLoop q m acc) := by
  rw [resolveLoop_canonical fuel q m acc h]
  unfold runLoop
  obtain ⟨r, hr⟩ := Option.isSome_iff_exists.mp
    (resolveLoop_isSome (resolveFuel q m) q m acc (le_refl _))
  simp [hr]

@[simp]
theorem runLoop_nil (m : Deps) (acc : List PyObj) :
    runLoop [] m acc = (acc, m) := by
  simp [runLoop]

theorem runLoop_cons (x : AfterKey) (rest : List AfterKey) (m : Deps)
    (acc : List PyObj) :
    runLoop (x :: rest) m acc =
      runLoop ((popKey m (stepKey x)).1.map AfterKey.obj ++ rest)
        (popKey m (stepKey x)).2 (acc ++ stepEmit x) := by
  have h1 : resolveFuel (x :: rest) m ≤ resolveFuel (x :: rest) m := le_refl _
  have h2 := resolveFuel_step x rest m
  have := runLoop_eq_resolveLoop (resolveFuel (x :: rest) m) (x :: rest) m acc h1
  have hbody := runLoop_eq_resolveLoop
    (resolveFuel ((popKey m (stepKey x)).1.map AfterKey.obj ++ rest) (popKey m (stepKey x)).2)
    ((popKey m (stepKey x)).1.map AfterKey.obj ++ rest) (popKey m (stepKey x)).2
    (acc ++ stepEmit x) (le_refl _)
  rw [← h2, resolveLoop_cons] at this
  rw [resolveLoop_canonical _ _ _ _ (le_refl _)] at this
  rw [hbody] at this
  exact (Option.some_inj.mp this).symm

/-! ### Structure of the traversal: accumulator, queue splitting -/

theorem runLoop_acc_aux (n : Nat) :
    ∀ (q : List AfterKey) (m : Deps) (acc : List PyObj),
      resolveFuel q m ≤ n →
      runLoop q m acc = (acc ++ (runLoop q m []).1, (runLoop q m []).2) := by
  induction n with
  | zero =>
    intro q m acc h
    cases q with
    | nil => simp
    | cons x rest => simp [resolveFuel] at h
  | succ n ih =>
    intro q m acc h
    cases q with
    | nil => simp
    | cons x rest =>
      rw [runLoop_cons, runLoop_cons]
      have hstep := resolveFuel_step x rest m
      rw [ih _ _ (acc ++ stepEmit x) (by omega), ih _ _ ([] ++ stepEmit x) (by omega)]
      simp

/-- The output of the loop is the accumulator followed by the output the
loop produces from an empty accumulator; the residual dict does not
depend on the accumulator. -/
theorem runLoop_acc (q : List AfterKey) (m : Deps) (acc : List PyObj) :
    runLoop q m acc = (acc ++ (runLoop q m []).1, (runLoop q m []).2) :=
  runLoop_acc_aux (resolveFuel q m) q m acc (le_refl _)

theorem runLoop_append_aux (n : Nat) :
    ∀ (q1 q2 : List AfterKey) (m : Deps) (acc : List PyObj),
      resolveFuel q1 m ≤ n →
      runLoop (q1 ++ q2) m acc =
        runLoop q2 (runLoop q1 m acc).2 (runLoop q1 m acc).1 := by
  induction n with
  | zero =>
    intro q1 q2 m acc h
    cases q1 with
    | nil => simp
    | cons x rest => simp [resolveFuel] at h
  | succ n ih =>
    intro q1 q2 m acc h
    cases q1 with
    | nil => simp
    | cons x rest =>
      rw [List.cons_append, runLoop_cons, runLoop_cons, ← List.append_assoc]
      have hstep := resolveFuel_step x rest m
      exact ih _ _ _ _ (by omega)

/-- Queue splitting: the loop first fully processes the front of the
queue (emitting that whole block) and only then the rest, on the residual
dict — the traversal is depth-first. -/
theorem runLoop_append (q1 q2 : List AfterKey) (m : Deps) (acc : List PyObj) :
    runLoop (q1 ++ q2) m acc =
      runLoop q2 (runLoop q1 m acc).2 (runLoop q1 m acc).1 :=
  runLoop_append_aux (resolveFuel q1 m) q1 q2 m acc (le_refl _)

/-- Once the working dict is exhausted, queued objects are emitted in
queue order with no further expansion. -/
theorem runLoop_emptyMap (l : List PyObj) (acc : List PyObj) :
    runLoop (l.map AfterKey.obj) [] acc = (acc ++ l, []) := by
  induction l generalizing acc with
  | nil => simp
  | cons o rest ih =>
    rw [List.map_cons, runLoop_cons]
    have hpop : popKey [] (stepKey (AfterKey.obj o)) = ([], []) := rfl
    rw [hpop]
    simp only [List.map_nil, List.nil_append]
    rw [ih]
    simp [stepEmit]

/-! ### Conservation: the traversal emits registered dependents only -/

@[simp]
theorem depsVals_nil : depsVals [] = [] := rfl

@[simp]
theorem depsVals_cons (k : AfterKey) (l : List PyObj) (rest : Deps) :
    depsVals ((k, l) :: rest) = l ++ depsVals rest := by
  simp [depsVals]

@[simp]
theorem objsOf_nil : objsOf [] = [] := rfl

@[simp]
theorem objsOf_cons (x : AfterKey) (q : List AfterKey) :
    objsOf (x :: q) = stepEmit x ++ objsOf q := by
  cases x <;> simp [objsOf, stepEmit, List.filterMap_cons]

@[simp]
theorem objsOf_append (q1 q2 : List AfterKey) :
    objsOf (q1 ++ q2) = objsOf q1 ++ objsOf q2 := by
  simp [objsOf, List.filterMap_append]

@[simp]
theorem objsOf_map_obj (l : List PyObj) : objsOf (l.map AfterKey.obj) = l := by
  induction l with
  | nil => rfl
  | cons o rest ih => simp [objsOf, List.filterMap_cons] at ih ⊢; exact ih

theorem popKey_vals_perm (d : Deps) (k : AfterKey) :
    List.Perm (depsVals d) ((popKey d k).1 ++ depsVals (popKey d k).2) := by
  induction d with
  | nil => simp [popKey]
  | cons p rest ih =>
    obtain ⟨k1, l⟩ := p
    by_cases hk : k1 = k
    · simp [popKey, hk]
    · simp only [popKey, if_neg hk, depsVals_cons]
      rw [← Multiset.coe_eq_coe] at ih ⊢
      simp only [← Multiset.coe_add] at ih ⊢
      rw [ih]
      abel

theorem runLoop_perm_aux (n : Nat) :
    ∀ (q : List AfterKey) (m : Deps) (acc : List PyObj),
      resolveFuel q m ≤ n →
      List.Perm ((runLoop q m acc).1 ++ depsVals (runLoop q m acc).2)
        (acc ++ objsOf q ++ depsVals m) := by
  induction n with
  | zero =>
    intro q m acc h
    cases q with
    | nil => simp
    | cons x rest => simp [resolveFuel] at h
  | succ n ih =>
    intro q m acc h
    cases q with
    | nil => simp
    | cons x rest =>
      rw [runLoop_cons]
      have hstep := resolveFuel_step x rest m
      have hv := popKey_vals_perm m (stepKey x)
      have hih := ih ((popKey m (stepKey x)).1.map AfterKey.obj ++ rest)
        (popKey m (stepKey x)).2 (acc ++ stepEmit x) (by omega)
      rw [← Multiset.coe_eq_coe] at hv hih ⊢
      simp only [objsOf_append, objsOf_map_obj, objsOf_cons,
        ← Multiset.coe_add] at hv hih ⊢
      rw [hih, hv]
      abel

/-- Every run of the loop emits, together with what stays unreachable in
the residual dict, exactly the accumulator, the queued objects and the
registered dependents: nothing is invented and nothing emitted twice
beyond its registered multiplicity. -/
theorem runLoop_perm (q : List AfterKey) (m : Deps) (acc : List PyObj) :
    List.Perm ((runLoop q m acc).1 ++ depsVals (runLoop q m acc).2)
      (acc ++ objsOf q ++ depsVals m) :=
  runLoop_perm_aux (resolveFuel q m) q m acc (le_refl _)

theorem resolve_ordering_perm (d : Deps) :
    List.Perm (resolve_ordering d ++ depsVals (runLoop [.fls, .none_] d []).2)
      (depsVals d) := by
  have h := runLoop_perm [.fls, .none_] d []
  simpa [resolve_ordering, stepEmit] using h

theorem resolve_ordering_nodup (d : Deps) (h : (depsVals d).Nodup) :
    (resolve_ordering d).Nodup := by
  have hp := resolve_ordering_perm d
  have : (resolve_ordering d ++ depsVals (runLoop [.fls, .none_] d []).2).Nodup :=
    (hp.nodup_iff).mpr h
  exact this.of_append_left

theorem resolve_ordering_mem (d : Deps) (x : PyObj) (hx : x ∈ resolve_ordering d) :
    x ∈ depsVals d := by
  have hp := resolve_ordering_perm d
  exact hp.mem_iff.mp (List.mem_append_left _ hx)

/-! ### Queued objects are always emitted -/

theorem runLoop_acc_subset (q : List AfterKey) (m : Deps) (acc : List PyObj) :
    ∀ a ∈ acc, a ∈ (runLoop q m acc).1 := by
  intro a ha
  rw [runLoop_acc]
  exact List.mem_append_left _ ha

theorem runLoop_objs_subset_aux (n : Nat) :
    ∀ (q : List AfterKey) (m : Deps) (acc : List PyObj),
      resolveFuel q m ≤ n →
      ∀ a ∈ objsOf q, a ∈ (runLoop q m acc).1 := by
  induction n with
  | zero =>
    intro q m acc h
    cases q with
    | nil => simp
    | cons x rest => simp [resolveFuel] at h
  | succ n ih =>
    intro q m acc h a ha
    cases q with
    | nil => simp at ha
    | cons x rest =>
      rw [runLoop_cons]
      have hstep := resolveFuel_step x rest m
      rw [objsOf_cons, List.mem_append] at ha
      rcases ha with ha | ha
      · exact runLoop_acc_subset _ _ _ a (List.mem_append_right _ ha)
      · exact ih _ _ _ (by omega) a (by simp [ha])

/-- Every object placed on the queue ends up in the emitted output. -/
theorem runLoop_objs_subset (q : List AfterKey) (m : Deps) (acc : List PyObj) :
    ∀ a ∈ objsOf q, a ∈ (runLoop q m acc).1 :=
  runLoop_objs_subset_aux (resolveFuel q m) q m acc (le_refl _)

/-! ### Registries built from a history of add calls -/

theorem build_dependencies_aux (h : List (PyObj × AfterKey)) :
    ∀ s : ListWithPrecedence,
      (h.foldl (fun s p => s.add p.1 p.2) s).dependencies =
        h.foldl (fun d p => addDep d p.2 p.1) s.dependencies := by
  induction h with
  | nil => intro s; rfl
  | cons p rest ih =>
    intro s
    simp only [List.foldl_cons]
    exact ih (s.add p.1 p.2)

/-- The dict of a built registry is the fold of `addDep` over the history. -/
theorem build_dependencies (h : List (PyObj × AfterKey)) :
    (ListWithPrecedence.build h).dependencies = depsOfHistory h :=
  build_dependencies_aux h .empty

theorem iter_eq_resolve_aux (h : List (PyObj × AfterKey)) :
    ∀ s : ListWithPrecedence,
      s.ordered_elements = resolve_ordering s.dependencies →
      (h.foldl (fun s p => s.add p.1 p.2) s).ordered_elements =
        resolve_ordering (h.foldl (fun s p => s.add p.1 p.2) s).dependencies := by
  induction h with
  | nil => intro s hs; exact hs
  | cons p rest ih =>
    intro s _
    simp only [List.foldl_cons]
    exact ih (s.add p.1 p.2) rfl

/-- Iterating a built registry reads exactly the resolved ordering of its
accumulated dict. -/
theorem iter_build (h : List (PyObj × AfterKey)) :
    (ListWithPrecedence.build h).iter = resolve_ordering (depsOfHistory h) := by
  rw [← build_dependencies h]
  refine iter_eq_resolve_aux h .empty ?_
  decide

/-! ### Root-only histories -/

theorem addDep_none_fold (fs : List PyObj) :
    ∀ l0 : List PyObj,
      (fs.map fun f => (f, AfterKey.none_)).foldl (fun d p => addDep d p.2 p.1)
          [(AfterKey.none_, l0)] =
        [(AfterKey.none_, l0 ++ fs)] := by
  induction fs with
  | nil => intro l0; simp
  | cons f rest ih =>
    intro l0
    simp only [List.map_cons, List.foldl_cons]
    have hstep : addDep [(AfterKey.none_, l0)] AfterKey.none_ f =
        [(AfterKey.none_, l0 ++ [f])] := by
      simp [addDep]
    rw [hstep, ih (l0 ++ [f])]
    simp

/-- A history that only ever passes `after=None` accumulates the single
root entry, in insertion order. -/
theorem depsOfHistory_root (f : PyObj) (fs : List PyObj) :
    depsOfHistory ((f :: fs).map fun x => (x, AfterKey.none_)) =
      [(AfterKey.none_, f :: fs)] := by
  simp only [depsOfHistory, List.map_cons, List.foldl_cons]
  have h0 : addDep [] AfterKey.none_ f = [(AfterKey.none_, [f])] := rfl
  rw [h0, addDep_none_fold fs [f]]
  simp

/-- Resolving a dict with only the root entry yields the entry's list. -/
theorem resolve_ordering_root (fs : List PyObj) :
    resolve_ordering [(AfterKey.none_, fs)] = fs := by
  have h1 : popKey [(AfterKey.none_, fs)] (stepKey AfterKey.fls) =
      ([], [(AfterKey.none_, fs)]) := rfl
  have h2 : popKey [(AfterKey.none_, fs)] (stepKey AfterKey.none_) = (fs, []) := rfl
  rw [resolve_ordering, runLoop_cons, h1]
  simp only [List.map_nil, List.nil_append, List.append_nil, stepEmit]
  rw [runLoop_cons, h2]
  simp only [List.append_nil, stepEmit, List.nil_append]
  rw [runLoop_emptyMap]
  simp

/-! ### Category-based attachment -/

@[simp]
theorem stepKey_obj (o : PyObj) :
    stepKey (AfterKey.obj o) = AfterKey.obj (PyObj.cls o.categoryName) := by
  cases o <;> rfl

theorem mem_insertAfterFirst (k : Nat) (c : PyObj) (fs : List PyObj)
    (hmatch : ∃ x ∈ fs, x.categoryName = k) :
    c ∈ insertAfterFirst k c fs := by
  induction fs with
  | nil => simp at hmatch
  | cons f rest ih =>
    by_cases hf : f.categoryName = k
    · simp [insertAfterFirst, hf]
    · obtain ⟨x, hx, hxk⟩ := hmatch
      rcases List.mem_cons.mp hx with rfl | hx
      · exact absurd hxk hf
      · simp only [insertAfterFirst, if_neg hf]
        exact List.mem_cons_of_mem _ (ih ⟨x, hx, hxk⟩)

theorem runLoop_category_walk (k : Nat) (c : PyObj) (fs : List PyObj) :
    ∀ acc : List PyObj, (∃ x ∈ fs, x.categoryName = k) →
      (runLoop (fs.map AfterKey.obj) [(AfterKey.obj (PyObj.cls k), [c])] acc).1 =
        acc ++ insertAfterFirst k c fs := by
  induction fs with
  | nil => intro acc hmatch; simp at hmatch
  | cons f rest ih =>
    intro acc hmatch
    rw [List.map_cons, runLoop_cons, stepKey_obj]
    by_cases hf : f.categoryName = k
    · have hpop : popKey [(AfterKey.obj (PyObj.cls k), [c])]
          (AfterKey.obj (PyObj.cls f.categoryName)) = ([c], []) := by
        rw [hf]; simp [popKey]
      rw [hpop]
      have hq : ([c].map AfterKey.obj ++ rest.map AfterKey.obj) =
          (c :: rest).map AfterKey.obj := by simp
      rw [hq, runLoop_emptyMap]
      simp [insertAfterFirst, hf, stepEmit]
    · have hpop : popKey [(AfterKey.obj (PyObj.cls k), [c])]
          (AfterKey.obj (PyObj.cls f.categoryName)) =
          ([], [(AfterKey.obj (PyObj.cls k), [c])]) := by
        have hne : (AfterKey.obj (PyObj.cls k)) ≠
            (AfterKey.obj (PyObj.cls f.categoryName)) := by
          intro hcontra
          apply hf
          cases hcontra
          rfl
        simp [popKey, hne]
      rw [hpop]
      simp only [List.map_nil, List.nil_append]
      have hrest : ∃ x ∈ rest, x.categoryName = k := by
        obtain ⟨x, hx, hxk⟩ := hmatch
        rcases List.mem_cons.mp hx with rfl | hx
        · exact absurd hxk hf
        · exact ⟨x, hx, hxk⟩
      rw [ih (acc ++ stepEmit (AfterKey.obj f)) hrest]
      simp [insertAfterFirst, hf, stepEmit]

theorem depsOfHistory_append (h1 h2 : List (PyObj × AfterKey)) :
    depsOfHistory (h1 ++ h2) =
      h2.foldl (fun d p => addDep d p.2 p.1) (depsOfHistory h1) := by
  simp [depsOfHistory, List.foldl_append]

theorem resolve_root_and_category (k : Nat) (c : PyObj) (fs : List PyObj)
    (hmatch : ∃ x ∈ fs, x.categoryName = k) :
    resolve_ordering [(AfterKey.none_, fs), (AfterKey.obj (PyObj.cls k), [c])] =
      insertAfterFirst k c fs := by
  have h1 : popKey [(AfterKey.none_, fs), (AfterKey.obj (PyObj.cls k), [c])]
      (stepKey AfterKey.fls) =
      ([], [(AfterKey.none_, fs), (AfterKey.obj (PyObj.cls k), [c])]) := rfl
  have h2 : popKey [(AfterKey.none_, fs), (AfterKey.obj (PyObj.cls k), [c])]
      (stepKey AfterKey.none_) = (fs, [(AfterKey.obj (PyObj.cls k), [c])]) := rfl
  rw [resolve_ordering, runLoop_cons, h1]
  simp only [List.map_nil, List.nil_append, List.append_nil, stepEmit]
  rw [runLoop_cons, h2]
  simp only [List.append_nil, stepEmit, List.nil_append]
  exact runLoop_category_walk k c fs [] hmatch

/-! ### Unreachable keys are inert -/

theorem popKey_fst_subset (m : Deps) (key : AfterKey) :
    ∀ a ∈ (popKey m key).1, a ∈ depsVals m := by
  intro a ha
  exact (popKey_vals_perm m key).mem_iff.mpr (List.mem_append_left _ ha)

theorem popKey_snd_subset (m : Deps) (key : AfterKey) :
    ∀ a ∈ depsVals (popKey m key).2, a ∈ depsVals m := by
  intro a ha
  exact (popKey_vals_perm m key).mem_iff.mpr (List.mem_append_right _ ha)

theorem popKey_addDep (k : AfterKey) (c : PyObj) (key : AfterKey) (hne : key ≠ k) :
    ∀ m : Deps,
      popKey (addDep m k c) key = ((popKey m key).1, addDep (popKey m key).2 k c) := by
  intro m
  induction m with
  | nil =>
    simp only [addDep, popKey]
    rw [if_neg (fun h => hne h.symm)]
  | cons p rest ih =>
    obtain ⟨k1, l⟩ := p
    by_cases hk1 : k1 = k
    · subst hk1
      have hkey : k1 ≠ key := fun h => hne h.symm
      simp [addDep, popKey, hkey]
    · by_cases hkey : k1 = key
      · subst hkey
        simp [addDep, popKey, hk1]
      · simp only [addDep, if_neg hk1, popKey, if_neg hkey]
        rw [ih]

theorem depsVals_addDep_perm (k : AfterKey) (c : PyObj) (d : Deps) :
    List.Perm (depsVals (addDep d k c)) (c :: depsVals d) := by
  induction d with
  | nil => simp [addDep]
  | cons p rest ih
  =>
    obtain ⟨k1, l⟩ := p
    by_cases hk1 : k1 = k
    · subst hk1
      have hstep : addDep ((k1, l) :: rest) k1 c = (k1, l ++ [c]) :: rest := by
        simp [addDep]
      rw [hstep, depsVals_cons, depsVals_cons]
      rw [← Multiset.coe_eq_coe]
      simp only [← Multiset.coe_add, ← Multiset.cons_coe, ← Multiset.singleton_add]
      abel
    · simp only [addDep, if_neg hk1, depsVals_cons]
      rw [← Multiset.coe_eq_coe] at ih ⊢
      simp only [← Multiset.coe_add, ← Multiset.cons_coe, ← Multiset.singleton_add] at ih ⊢
      rw [ih]
      abel

theorem runLoop_addDep_unreachable_aux (k : AfterKey) (c : PyObj) (n : Nat) :
    ∀ (q : List AfterKey) (m : Deps) (acc : List PyObj),
      resolveFuel q m ≤ n →
      (∀ x ∈ q, stepKey x ≠ k) →
      (∀ f ∈ depsVals m, AfterKey.obj (PyObj.cls f.categoryName) ≠ k) →
      runLoop q (addDep m k c) acc =
        ((runLoop q m acc).1, addDep (runLoop q m acc).2 k c) := by
  induction n with
  | zero =>
    intro q m acc h hq hm
    cases q with
    | nil => simp
    | cons x rest => simp [resolveFuel] at h
  | succ n ih =>
    intro q m acc h hq hm
    cases q with
    | nil => simp
    | cons x rest =>
      have hxk : stepKey x ≠ k := hq x (List.mem_cons_self x rest)
      rw [runLoop_cons, runLoop_cons, popKey_addDep k c (stepKey x) hxk m]
      dsimp only
      have hstep := resolveFuel_step x rest m
      have hq1 : ∀ y ∈ (popKey m (stepKey x)).1.map AfterKey.obj ++ rest,
          stepKey y ≠ k := by
        intro y hy
        rcases List.mem_append.mp hy with hy | hy
        · obtain ⟨f, hf, rfl⟩ := List.mem_map.mp hy
          rw [stepKey_obj]
          exact hm f (popKey_fst_subset m (stepKey x) f hf)
        · exact hq y (List.mem_cons_of_mem x hy)
      have hm1 : ∀ f ∈ depsVals (popKey m (stepKey x)).2,
          AfterKey.obj (PyObj.cls f.categoryName) ≠ k := by
        intro f hf
        exact hm f (popKey_snd_subset m (stepKey x) f hf)
      exact ih ((popKey m (stepKey x)).1.map AfterKey.obj ++ rest)
        (popKey m (stepKey x)).2 (acc ++ stepEmit x) (by omega) hq1 hm1

/-- Adding a dependent under a key that no sentinel equals and no added
feature's category ever matches leaves the resolved ordering untouched:
the dependent is silently unreachable. -/
theorem resolve_ordering_addDep_unreachable (d : Deps) (k : AfterKey) (c : PyObj)
    (hfls : k ≠ AfterKey.fls) (hnone : k ≠ AfterKey.none_)
    (hm : ∀ f ∈ depsVals (addDep d k c),
      AfterKey.obj (PyObj.cls f.categoryName) ≠ k) :
    resolve_ordering (addDep d k c) = resolve_ordering d := by
  have hm0 : ∀ f ∈ depsVals d, AfterKey.obj (PyObj.cls f.categoryName) ≠ k := by
    intro f hf
    exact hm f ((depsVals_addDep_perm k c d).mem_iff.mpr (List.mem_cons_of_mem c hf))
  have hq : ∀ x ∈ [AfterKey.fls, AfterKey.none_], stepKey x ≠ k := by
    intro x hx h
    rcases List.mem_cons.mp hx with rfl | hx
    · exact hfls (by simpa [stepKey] using h.symm)
    · rcases List.mem_cons.mp hx with rfl | hx
      · exact hnone (by simpa [stepKey] using h.symm)
      · simp at hx
  have := runLoop_addDep_unreachable_aux k c
    (resolveFuel [AfterKey.fls, AfterKey.none_] d)
    [AfterKey.fls, AfterKey.none_] d [] (le_refl _) hq hm0
  rw [resolve_ordering, resolve_ordering, this]

/-! ### Features added along a history -/

theorem depsVals_depsOfHistory_perm (h : List (PyObj × AfterKey)) :
    ∀ d0 : Deps,
      List.Perm (depsVals (h.foldl (fun d p => addDep d p.2 p.1) d0))
        (depsVals d0 ++ h.map Prod.fst) := by
  induction h with
  | nil => intro d0; simp
  | cons p rest ih =>
    intro d0
    simp only [List.foldl_cons, List.map_cons]
    have hstep := depsVals_addDep_perm p.2 p.1 d0
    have hrest := ih (addDep d0 p.2 p.1)
    rw [← Multiset.coe_eq_coe] at hstep hrest ⊢
    simp only [← Multiset.coe_add, ← Multiset.cons_coe, ← Multiset.singleton_add]
      at hstep hrest ⊢
    rw [hrest, hstep]
    abel

/-- The flattened dependents of a built registry are exactly the features
of the history, up to order. -/
theorem depsVals_build_perm (h : List (PyObj × AfterKey)) :
    List.Perm (depsVals (depsOfHistory h)) (h.map Prod.fst) := by
  have := depsVals_depsOfHistory_perm h []
  simpa [depsOfHistory] using this

/-! ### Sentinel entries survive runs that never look them up -/

theorem popKey_popKey_other (key k : AfterKey) (hne : key ≠ k) :
    ∀ m : Deps, (popKey (popKey m key).2 k).1 = (popKey m k).1 := by
  intro m
  induction m with
  | nil => rfl
  | cons p rest ih =>
    obtain ⟨k1, l⟩ := p
    by_cases hkey : k1 = key
    · subst hkey
      have hk : k1 ≠ k := fun h => hne (h ▸ rfl)
      simp [popKey, hk]
    · by_cases hk : k1 = k
      · subst hk
        simp [popKey, hkey]
      · simp only [popKey, if_neg hkey, if_neg hk]
        exact ih

theorem runLoop_frozen_key_aux (k : AfterKey) (hobj : ∀ o : PyObj, k ≠ AfterKey.obj o)
    (n : Nat) :
    ∀ (q : List AfterKey) (m : Deps) (acc : List PyObj),
      resolveFuel q m ≤ n →
      (∀ x ∈ q, stepKey x ≠ k) →
      (popKey (runLoop q m acc).2 k).1 = (popKey m k).1 := by
  induction n with
  | zero =>
    intro q m acc h hq
    cases q with
    | nil => simp
    | cons x rest => simp [resolveFuel] at h
  | succ n ih =>
    intro q m acc h hq
    cases q with
    | nil => simp
    | cons x rest =>
      rw [runLoop_cons]
      have hstep := resolveFuel_step x rest m
      have hq1 : ∀ y ∈ (popKey m (stepKey x)).1.map AfterKey.obj ++ rest,
          stepKey y ≠ k := by
        intro y hy
        rcases List.mem_append.mp hy with hy | hy
        · obtain ⟨f, hf, rfl⟩ := List.mem_map.mp hy
          rw [stepKey_obj]
          exact fun hcontra => hobj (PyObj.cls f.categoryName) hcontra.symm
        · exact hq y (List.mem_cons_of_mem x hy)
      rw [ih ((popKey m (stepKey x)).1.map AfterKey.obj ++ rest)
        (popKey m (stepKey x)).2 (acc ++ stepEmit x) (by omega) hq1]
      exact popKey_popKey_other (stepKey x) k
        (hq x (List.mem_cons_self x rest)) m

/-- A run whose queue never looks up the key `k` (and can never produce
it, because `k` is a sentinel) leaves the entry registered at `k`
untouched in the residual dict. -/
theorem runLoop_frozen_key (k : AfterKey) (hobj : ∀ o : PyObj, k ≠ AfterKey.obj o)
    (q : List AfterKey) (m : Deps) (acc : List PyObj)
    (hq : ∀ x ∈ q, stepKey x ≠ k) :
    (popKey (runLoop q m acc).2 k).1 = (popKey m k).1 :=
  runLoop_frozen_key_aux k hobj (resolveFuel q m) q m acc (le_refl _) hq

/-! ### C1 -/

/-- C1 (counterexample): the claim says `add(X, after=None)`,
`add(Y, after=None)`, `add(Z, after=X)` always yields `[X, Z, Y]`.  With
instance features it fails: the dict key is the instance `X` while the
traversal only ever looks up class keys, so `Z` is silently dropped and
iteration yields `[X, Y]`. -/
theorem C1_counterexample :
    (ListWithPrecedence.build
        [(PyObj.inst 0 0, AfterKey.none_), (PyObj.inst 1 1, AfterKey.none_),
          (PyObj.inst 2 2, AfterKey.obj (PyObj.inst 0 0))]).iter ≠
      [PyObj.inst 0 0, PyObj.inst 2 2, PyObj.inst 1 1] ∧
    (ListWithPrecedence.build
        [(PyObj.inst 0 0, AfterKey.none_), (PyObj.inst 1 1, AfterKey.none_),
          (PyObj.inst 2 2, AfterKey.obj (PyObj.inst 0 0))]).iter =
      [PyObj.inst 0 0, PyObj.inst 1 1] := by
  decide

/-- C1 (amended): when the anchor `X` is a class object (the form the
surrounding configurator uses), the sequence `add(X, after=None)`,
`add(Y, after=None)`, `add(Z, after=X)` yields exactly `[X, Z, Y]`: `Z`
attaches under `X` before the later root sibling `Y` is reached. -/
theorem C1_amended_class_anchor (a : Nat) (Y Z : PyObj) :
    (ListWithPrecedence.build
        [(PyObj.cls a, AfterKey.none_), (Y, AfterKey.none_),
          (Z, AfterKey.obj (PyObj.cls a))]).iter =
      [PyObj.cls a, Z, Y] := by
  rw [iter_build]
  have hd : depsOfHistory
      [(PyObj.cls a, AfterKey.none_), (Y, AfterKey.none_),
        (Z, AfterKey.obj (PyObj.cls a))] =
      [(AfterKey.none_, [PyObj.cls a, Y]), (AfterKey.obj (PyObj.cls a), [Z])] := by
    simp [depsOfHistory, addDep]
  rw [hd]
  rw [resolve_root_and_category a Z [PyObj.cls a, Y] ⟨PyObj.cls a, by simp, rfl⟩]
  simp [insertAfterFirst, PyObj.categoryName]

/-! ### C2 -/

/-- C2 (counterexample): the traversal is not breadth-first.  For
`add(X)`, `add(Y)`, `add(Z, after=X)` with class features, breadth-first
order (all roots first, then dependents) is `[X, Y, Z]`, while the code
yields `[X, Z, Y]`: the dependent `Z` is emitted before the root `Y`
because `extendleft` prepends dependents to the queue. -/
theorem C2_counterexample :
    (ListWithPrecedence.build
        [(PyObj.cls 0, AfterKey.none_), (PyObj.cls 1, AfterKey.none_),
          (PyObj.cls 2, AfterKey.obj (PyObj.cls 0))]).iter =
      [PyObj.cls 0, PyObj.cls 2, PyObj.cls 1] ∧
    bfsOrder (ListWithPrecedence.build
        [(PyObj.cls 0, AfterKey.none_), (PyObj.cls 1, AfterKey.none_),
          (PyObj.cls 2, AfterKey.obj (PyObj.cls 0))]).dependencies =
      [PyObj.cls 0, PyObj.cls 1, PyObj.cls 2] ∧
    (ListWithPrecedence.build
        [(PyObj.cls 0, AfterKey.none_), (PyObj.cls 1, AfterKey.none_),
          (PyObj.cls 2, AfterKey.obj (PyObj.cls 0))]).iter ≠
      bfsOrder (ListWithPrecedence.build
        [(PyObj.cls 0, AfterKey.none_), (PyObj.cls 1, AfterKey.none_),
          (PyObj.cls 2, AfterKey.obj (PyObj.cls 0))]).dependencies := by
  decide

/-- C2 (amended): ordered traversal is depth-first preorder, not
breadth-first: the loop first completes the entire block reachable from
the front queue entry — a visited feature is emitted immediately followed
by the full walk of its directly-attached dependents — and only then
continues with the rest of the queue on the residual dict; sibling
insertion order is the tie-break (dependents are prepended in list
order). -/
theorem C2_amended_depth_first (x : AfterKey) (q : List AfterKey) (m : Deps)
    (acc : List PyObj) :
    runLoop (x :: q) m acc =
      runLoop q (runLoop [x] m acc).2 (runLoop [x] m acc).1 ∧
    ∀ o : PyObj,
      (runLoop [AfterKey.obj o] m acc).1 =
        acc ++ o ::
          (runLoop ((popKey m (stepKey (AfterKey.obj o))).1.map AfterKey.obj)
            (popKey m (stepKey (AfterKey.obj o))).2 []).1 := by
  constructor
  · have h := runLoop_append [x] q m acc
    simpa using h
  · intro o
    rw [runLoop_cons]
    simp only [List.append_nil, stepEmit]
    rw [runLoop_acc]
    simp

/-! ### C3 -/

/-- C3: category-based matching.  After root-adding features `fs`, adding
`c` with `after = SomeKind` (the class object of category `k`) where some
previously added feature has category `k` attaches `c` to that category's
traversal slot: iteration yields `fs` with `c` inserted right after the
first feature of category `k`; in particular `c` appears in the output. -/
theorem C3_category_matching (fs : List PyObj) (c : PyObj) (k : Nat)
    (hmatch : ∃ x ∈ fs, x.categoryName = k) :
    (ListWithPrecedence.build
        ((fs.map fun x => (x, AfterKey.none_)) ++
          [(c, AfterKey.obj (PyObj.cls k))])).iter =
      insertAfterFirst k c fs ∧
    c ∈ (ListWithPrecedence.build
        ((fs.map fun x => (x, AfterKey.none_)) ++
          [(c, AfterKey.obj (PyObj.cls k))])).iter := by
  cases fs with
  | nil => simp at hmatch
  | cons f rest =>
    have hroot := depsOfHistory_root f rest
    have hd : depsOfHistory
        (((f :: rest).map fun x => (x, AfterKey.none_)) ++
          [(c, AfterKey.obj (PyObj.cls k))]) =
        [(AfterKey.none_, f :: rest), (AfterKey.obj (PyObj.cls k), [c])] := by
      rw [depsOfHistory_append, hroot]
      rfl
    rw [iter_build, hd, resolve_root_and_category k c (f :: rest) hmatch]
    exact ⟨rfl, mem_insertAfterFirst k c (f :: rest) hmatch⟩

/-- C3 witness at a concrete input: one root instance of class `0`, then
a second instance attached after the class object `cls 0`. -/
theorem C3_witness :
    (ListWithPrecedence.build
        (([PyObj.inst 0 0].map fun x => (x, AfterKey.none_)) ++
          [(PyObj.inst 0 1, AfterKey.obj (PyObj.cls 0))])).iter =
      insertAfterFirst 0 (PyObj.inst 0 1) [PyObj.inst 0 0] ∧
    PyObj.inst 0 1 ∈ (ListWithPrecedence.build
        (([PyObj.inst 0 0].map fun x => (x, AfterKey.none_)) ++
          [(PyObj.inst 0 1, AfterKey.obj (PyObj.cls 0))])).iter :=
  C3_category_matching [PyObj.inst 0 0] (PyObj.inst 0 1) 0
    ⟨PyObj.inst 0 0, by decide, by decide⟩

/-! ### C4 -/

/-- C4: a feature `c` added under an `after` key `k` that is neither
sentinel and is never matched — no added feature's category ever produces
`k` as a lookup key — is silently omitted: the resolved ordering is
unchanged (so every other reachable feature is still yielded) and `c`
never appears.  `add` and iteration are total functions in this
embedding, mirroring that the source raises no exception on this path. -/
theorem C4_unreachable_silently_omitted (d : Deps) (k : AfterKey) (c : PyObj)
    (hfls : k ≠ AfterKey.fls) (hnone : k ≠ AfterKey.none_)
    (hm : ∀ f ∈ depsVals (addDep d k c),
      AfterKey.obj (PyObj.cls f.categoryName) ≠ k) :
    resolve_ordering (addDep d k c) = resolve_ordering d ∧
    (c ∉ resolve_ordering d → c ∉ resolve_ordering (addDep d k c)) := by
  have h := resolve_ordering_addDep_unreachable d k c hfls hnone hm
  refine ⟨h, fun hc => ?_⟩
  rw [h]
  exact hc

/-- C4 witness: a registry with one root class feature; an instance added
after the never-registered class key `cls 5` changes nothing. -/
theorem C4_witness :
    resolve_ordering
        (addDep [(AfterKey.none_, [PyObj.cls 0])] (AfterKey.obj (PyObj.cls 5))
          (PyObj.inst 1 0)) =
      resolve_ordering [(AfterKey.none_, [PyObj.cls 0])] ∧
    (PyObj.inst 1 0 ∉ resolve_ordering [(AfterKey.none_, [PyObj.cls 0])] →
      PyObj.inst 1 0 ∉ resolve_ordering
        (addDep [(AfterKey.none_, [PyObj.cls 0])] (AfterKey.obj (PyObj.cls 5))
          (PyObj.inst 1 0))) :=
  C4_unreachable_silently_omitted [(AfterKey.none_, [PyObj.cls 0])]
    (AfterKey.obj (PyObj.cls 5)) (PyObj.inst 1 0)
    (by decide) (by decide) (by decide)

/-! ### C5 -/

/-- C5 (counterexample): the claim says every added feature appears in
the ordered sequence exactly once for every sequence of add calls.  A
feature added under a never-registered `after` key appears zero times. -/
theorem C5_counterexample :
    (ListWithPrecedence.build
        [(PyObj.inst 0 0, AfterKey.obj (PyObj.cls 5))]).iter = [] ∧
    ¬ ((ListWithPrecedence.build
        [(PyObj.inst 0 0, AfterKey.obj (PyObj.cls 5))]).iter.count
          (PyObj.inst 0 0) = 1) := by
  decide

/-- C5 (amended): each added feature appears in the ordered sequence at
most once — for pairwise-distinct added features the output has no
duplicates, even when several features declare the same `after` target —
and the output contains only added features.  (Exactly once fails for
unreachable dependents; reachable root features are covered by C6 and
attached dependents by C3.) -/
theorem C5_amended_at_most_once (h : List (PyObj × AfterKey))
    (hnodup : (h.map Prod.fst).Nodup) :
    (ListWithPrecedence.build h).iter.Nodup ∧
    ∀ x ∈ (ListWithPrecedence.build h).iter, x ∈ h.map Prod.fst := by
  rw [iter_build]
  constructor
  · exact resolve_ordering_nodup (depsOfHistory h)
      (((depsVals_build_perm h).nodup_iff).mpr hnodup)
  · intro x hx
    exact (depsVals_build_perm h).mem_iff.mp
      (resolve_ordering_mem (depsOfHistory h) x hx)

/-- C5 witness: two distinct features declaring the same class target. -/
theorem C5_witness :
    (ListWithPrecedence.build
        [(PyObj.cls 0, AfterKey.none_), (PyObj.inst 1 0, AfterKey.obj (PyObj.cls 0)),
          (PyObj.inst 1 1, AfterKey.obj (PyObj.cls 0))]).iter.Nodup ∧
    ∀ x ∈ (ListWithPrecedence.build
        [(PyObj.cls 0, AfterKey.none_), (PyObj.inst 1 0, AfterKey.obj (PyObj.cls 0)),
          (PyObj.inst 1 1, AfterKey.obj (PyObj.cls 0))]).iter,
      x ∈ [(PyObj.cls 0, AfterKey.none_), (PyObj.inst 1 0, AfterKey.obj (PyObj.cls 0)),
          (PyObj.inst 1 1, AfterKey.obj (PyObj.cls 0))].map Prod.fst :=
  C5_amended_at_most_once
    [(PyObj.cls 0, AfterKey.none_), (PyObj.inst 1 0, AfterKey.obj (PyObj.cls 0)),
      (PyObj.inst 1 1, AfterKey.obj (PyObj.cls 0))] (by decide)

/-! ### C6 -/

/-- C6: when every `add` call passes `after=None`, the ordered output is
exactly the insertion order. -/
theorem C6_root_only_insertion_order (fs : List PyObj) :
    (ListWithPrecedence.build (fs.map fun x => (x, AfterKey.none_))).iter = fs := by
  cases fs with
  | nil => rfl
  | cons f rest =>
    rw [iter_build, depsOfHistory_root, resolve_ordering_root]

/-! ### C7 -/

/-- C7: determinism — two registries built from the same ordered add-call
history have identical iteration order (and identical state); the order
is a function of the history. -/
theorem C7_determinism (h : List (PyObj × AfterKey)) (r1 r2 : ListWithPrecedence)
    (h1 : r1 = ListWithPrecedence.build h) (h2 : r2 = ListWithPrecedence.build h) :
    r1.iter = r2.iter ∧ r1 = r2 := by
  subst h1
  subst h2
  exact ⟨rfl, rfl⟩

/-- C7 witness at a concrete history. -/
theorem C7_witness :
    (ListWithPrecedence.build [(PyObj.cls 0, AfterKey.none_)]).iter =
      (ListWithPrecedence.build [(PyObj.cls 0, AfterKey.none_)]).iter ∧
    ListWithPrecedence.build [(PyObj.cls 0, AfterKey.none_)] =
      ListWithPrecedence.build [(PyObj.cls 0, AfterKey.none_)] :=
  C7_determinism [(PyObj.cls 0, AfterKey.none_)] _ _ rfl rfl

/-! ### C8 -/

/-- C8: iterating twice with no intervening `add` yields the same
sequence both times, and iteration leaves the registry state unchanged
(`__iter__` only reads `_ordered_elements`). -/
theorem C8_iteration_idempotent (s : ListWithPrecedence) :
    (s.iterElems).1 = ((s.iterElems).2.iterElems).1 ∧ (s.iterElems).2 = s :=
  ⟨rfl, rfl⟩

/-! ### C9 -/

/-- C9: `_resolve_ordering` terminates on every finite dependency dict,
category-level cycles included: fuel equal to the number of registered
dependents plus the two sentinel queue entries always suffices, and more
generally any fuel at least queue length plus dict size does. -/
theorem C9_termination_fuel_bound (d : Deps) (acc : List PyObj) :
    (resolveLoop (depsSize d + 2) [AfterKey.fls, AfterKey.none_] d acc).isSome ∧
    ∀ (fuel : Nat) (q : List AfterKey) (m : Deps),
      resolveFuel q m ≤ fuel → (resolveLoop fuel q m acc).isSome := by
  constructor
  · apply resolveLoop_isSome
    simp only [resolveFuel, List.length_cons, List.length_nil]
    omega
  · intro fuel q m hq
    exact resolveLoop_isSome fuel q m acc hq

/-- C9 witness: the loop on a self-referential category cycle — an
instance of class `0` registered after its own class key — still returns
within the stated fuel. -/
theorem C9_witness :
    (resolveLoop 5 [AfterKey.fls, AfterKey.none_]
        [(AfterKey.obj (PyObj.cls 0), [PyObj.inst 0 0])] []).isSome :=
  (C9_termination_fuel_bound [(AfterKey.obj (PyObj.cls 0), [PyObj.inst 0 0])] []).2
    5 [AfterKey.fls, AfterKey.none_]
    [(AfterKey.obj (PyObj.cls 0), [PyObj.inst 0 0])] (by decide)

/-! ### C10 -/

/-- C10: the queue is seeded `[False, None]`, so the resolved ordering is
the block reachable from the `False` sentinel followed by the block
reachable from `None` on the residual dict; every feature registered
under `after=False` lands in the first block and every feature registered
under `after=None` lands in the second — an undocumented priority root
level ahead of all `after=None` features. -/
theorem C10_false_sentinel_priority (d : Deps) :
    resolve_ordering d =
      (runLoop [AfterKey.fls] d []).1 ++
        (runLoop [AfterKey.none_] (runLoop [AfterKey.fls] d []).2 []).1 ∧
    (∀ b ∈ (popKey d AfterKey.fls).1, b ∈ (runLoop [AfterKey.fls] d []).1) ∧
    (∀ a ∈ (popKey d AfterKey.none_).1,
      a ∈ (runLoop [AfterKey.none_] (runLoop [AfterKey.fls] d []).2 []).1) := by
  refine ⟨?_, ?_, ?_⟩
  · have hsplit := runLoop_append [AfterKey.fls] [AfterKey.none_] d []
    have hacc := runLoop_acc [AfterKey.none_] (runLoop [AfterKey.fls] d []).2
      (runLoop [AfterKey.fls] d []).1
    rw [resolve_ordering]
    have hq : [AfterKey.fls, AfterKey.none_] =
        [AfterKey.fls] ++ [AfterKey.none_] := rfl
    rw [hq, hsplit, hacc]
  · intro b hb
    rw [runLoop_cons]
    apply runLoop_objs_subset
    have hk : stepKey AfterKey.fls = AfterKey.fls := rfl
    rw [hk]
    simp only [List.append_nil, objsOf_map_obj]
    exact hb
  · intro a ha
    rw [runLoop_cons]
    apply runLoop_objs_subset
    have hk : stepKey AfterKey.none_ = AfterKey.none_ := rfl
    have hq : ∀ x ∈ [AfterKey.fls], stepKey x ≠ AfterKey.none_ := by
      intro x hx
      rcases List.mem_cons.mp hx with rfl | hx
      · exact fun h => by cases h
      · simp at hx
    have hfrozen := runLoop_frozen_key AfterKey.none_ (fun o h => by cases h)
      [AfterKey.fls] d [] hq
    rw [hk, hfrozen]
    simp only [List.append_nil, objsOf_map_obj]
    exact ha

/-- C10 witness: with one feature under `False` and one under `None`, the
`False`-rooted feature is in the first block. -/
theorem C10_witness :
    PyObj.inst 0 0 ∈
      (runLoop [AfterKey.fls]
        [(AfterKey.fls, [PyObj.inst 0 0]), (AfterKey.none_, [PyObj.inst 1 0])] []).1 :=
  (C10_false_sentinel_priority
      [(AfterKey.fls, [PyObj.inst 0 0]), (AfterKey.none_, [PyObj.inst 1 0])]).2.1
    (PyObj.inst 0 0) (by decide)

end TG
